import Mathlib

/-!
A verification development for the `space-saver` duplicate-file tool.

The tool walks a directory tree, fingerprints every regular file of at
least a minimum size with a content hash, groups files by fingerprint,
and (in `clone-duplicates --real` mode) replaces every member of a group
except the earliest-modified one with a copy-on-write clone of that
member.  This file gives a shallow embedding of the tool's pure logic:

* the byte-size formatter `Format` (pkg/filesize/format.go) and the
  unit table (the `unitMap` source file), together with a parser
  modelled from the spec (the parser's own source file is not part of
  the sources at hand);
* the duplicate grouper of `findDuplicateFiles`, including the
  `insertSorted` binary-search insertion and the `os.SameFile` identity
  filter;
* the `clone-duplicates` planner/executor loop, with filesystem effects
  reified as an action trace and the platform `clonefile(2)` call, the
  `os.Stat`/`os.Remove` calls and `filepath.Abs` modelled by an
  environment record per source/target pair;
* the `same-file` command and the `truncateStringPrefix` helper.

Walking and hashing are I/O; the walk's output (path, size, modification
time, identity, content hash per visited entry) is the input of the
embedded `findDuplicateFiles`.  Machine integers: Go's `uint64` savings
accumulator is embedded as `Nat` with an explicit `% 2 ^ 64` at each
addition; file sizes and timestamps are non-negative and embedded as
`Nat`.
-/

/-! ## Byte-size units (the unit/suffix constants source file)

`Terabyte = 1 << 40`, `Gigabyte = 1 << 30`, `Megabyte = 1 << 20`,
`Kilobyte = 1 << 10`, `Byte = 1`, written as decimal literals. -/

def kilobyte : Nat := 1024

def megabyte : Nat := 1048576

def gigabyte : Nat := 1073741824

def terabyte : Nat := 1099511627776

/-! ## filesize.Format (pkg/filesize/format.go, lines 9-38) -/

/-- The `for remainder > uint64(Kilobyte)` loop of `filesize.Format`.
`output` is the `[]rune` accumulator; each branch appends
`strconv.FormatUint(value, 10)` (embedded as `Nat.repr`) plus the unit
suffix and subtracts `value * unit` from the remainder.  Note every
comparison is strict (`>`), exactly as in the source. -/
def formatLoop (remainder : Nat) (output : List Char) : List Char × Nat :=
  if h1 : kilobyte < remainder then
    if h2 : terabyte < remainder then
      formatLoop (remainder - remainder / terabyte * terabyte)
        (output ++ (Nat.repr (remainder / terabyte)).data ++ ['t', 'b'])
    else if h3 : gigabyte < remainder then
      formatLoop (remainder - remainder / gigabyte * gigabyte)
        (output ++ (Nat.repr (remainder / gigabyte)).data ++ ['g', 'b'])
    else if h4 : megabyte < remainder then
      formatLoop (remainder - remainder / megabyte * megabyte)
        (output ++ (Nat.repr (remainder / megabyte)).data ++ ['m', 'b'])
    else
      formatLoop (remainder - remainder / kilobyte * kilobyte)
        (output ++ (Nat.repr (remainder / kilobyte)).data ++ ['k', 'b'])
  else (output, remainder)
termination_by remainder
decreasing_by
  · simp only [kilobyte, terabyte] at h1 h2 ⊢; omega
  · simp only [kilobyte, gigabyte] at h1 h3 ⊢; omega
  · simp only [kilobyte, megabyte] at h1 h4 ⊢; omega
  · simp only [kilobyte] at h1 ⊢; omega

/-- `filesize.Format`: byte count to a compact multi-unit string.
Mirrors format.go lines 9-38: the small-input fast path, the loop, and
the trailing-byte component emitted only when the final remainder is
positive. -/
def Format (fileSizeInBytes : Nat) : String :=
  if fileSizeInBytes < kilobyte then Nat.repr fileSizeInBytes ++ "b"
  else if 0 < (formatLoop fileSizeInBytes []).2 then
    String.mk ((formatLoop fileSizeInBytes []).1 ++
      (Nat.repr (formatLoop fileSizeInBytes []).2).data ++ ['b'])
  else String.mk (formatLoop fileSizeInBytes []).1

/-- A single pass over the unit tiers with the same strict (`>`)
comparisons as the `Format` loop.  Because each emitted tier leaves a
remainder strictly below its unit, the `Format` loop fires every tier at
most once, in descending order; this non-recursive function is proved
equal to the loop below and is the anchor for reasoning about and
evaluating `Format`.  `tierStep` is one tier: emit a component and
reduce the remainder when the remainder strictly exceeds the unit. -/
def tierStep (u : Nat) (s : List (Nat × Nat) × Nat) : List (Nat × Nat) × Nat :=
  if u < s.2 then (s.1 ++ [(s.2 / u, u)], s.2 % u) else s

def tierSplit (rem : Nat) : List (Nat × Nat) × Nat :=
  if rem ≤ kilobyte then ([], rem)
  else tierStep kilobyte (tierStep megabyte (tierStep gigabyte (tierStep terabyte ([], rem))))

/-- Unit value to suffix, for rendering a (value, unit) component. -/
def suffixFor (u : Nat) : List Char :=
  if u = terabyte then ['t', 'b']
  else if u = gigabyte then ['g', 'b']
  else if u = megabyte then ['m', 'b']
  else if u = kilobyte then ['k', 'b']
  else ['b']

/-- Rendering of one (value, unit) component: decimal value then suffix. -/
def renderPart (p : Nat × Nat) : List Char := (Nat.repr p.1).data ++ suffixFor p.2

/-- Concatenated rendering of a component list, with no separators. -/
def renderParts : List (Nat × Nat) → List Char
  | [] => []
  | p :: ps => renderPart p ++ renderParts ps

/-- Total byte value of a component list. -/
def partsSum : List (Nat × Nat) → Nat
  | [] => 0
  | p :: ps => p.1 * p.2 + partsSum ps

/-- The component decomposition `Format` actually emits: the single byte
component on the fast path, else the tier components of the loop plus a
trailing byte component exactly when the final remainder is positive. -/
def formatParts (n : Nat) : List (Nat × Nat) :=
  if n < kilobyte then [(n, 1)]
  else if 0 < (tierSplit n).2 then (tierSplit n).1 ++ [((tierSplit n).2, 1)]
  else (tierSplit n).1

/-- The formatter the specification describes, written from its words:
for each unit tier in descending order one integer component is emitted
exactly when the quotient of the running remainder by that unit is
non-zero, a trailing zero-byte remainder emits nothing, and an input of
exactly 0 bytes emits "0b".  A second definition alongside `Format`,
kept for comparison with the code's behaviour. -/
def formatGreedySpec (n : Nat) : String :=
  if n = 0 then "0b"
  else
    String.mk (renderParts (List.filter (fun p => p.1 != 0)
      [(n / terabyte, terabyte), (n % terabyte / gigabyte, gigabyte),
       (n % gigabyte / megabyte, megabyte), (n % megabyte / kilobyte, kilobyte),
       (n % kilobyte, 1)]))

/-! ## filesize.Parse

The parser's own source file is not among the sources at hand; only its
unit table (`unitMap`, with binary multipliers for `tib/tb`, `gib/gb`,
`mib/mb`, `kib/kb`, `bytes/b`) and its tests are.  `Parse` below is
therefore modelled from the spec: an optional decimal integer or decimal
fraction followed by a case-insensitive unit suffix, repeated until the
input is exhausted, summing the components; any leftover that is not a
further component fails (`none`).  The spec's `Overflow` guard is not
needed over `Nat`. -/

/-- Numeric value of a decimal digit character. -/
def charVal (c : Char) : Nat := c.toNat - 48

/-- Value of a most-significant-first decimal digit string. -/
def valDigits (ds : List Char) : Nat := ds.foldl (fun a c => a * 10 + charVal c) 0

/-- The suffixes of `unitMap` with their binary multipliers, longest
first so that the longest suffix present is the one consumed. -/
def unitSuffixes : List (List Char × Nat) :=
  [(['b', 'y', 't', 'e', 's'], 1),
   (['t', 'i', 'b'], terabyte), (['g', 'i', 'b'], gigabyte),
   (['m', 'i', 'b'], megabyte), (['k', 'i', 'b'], kilobyte),
   (['t', 'b'], terabyte), (['g', 'b'], gigabyte),
   (['m', 'b'], megabyte), (['k', 'b'], kilobyte),
   (['b'], 1)]

/-- Case-insensitive stripping of a (lowercase) suffix pattern from the
front of the input, returning the rest on success. -/
def stripCase : List Char → List Char → Option (List Char)
  | [], cs => some cs
  | _ :: _, [] => none
  | p :: ps, c :: cs => if c == p || c == p.toUpper then stripCase ps cs else none

/-- First suffix of the table matching a prefix of the input. -/
def matchUnit : List (List Char × Nat) → List Char → Option (Nat × List Char)
  | [], _ => none
  | (pat, u) :: rest, cs =>
    match stripCase pat cs with
    | some cs2 => some (u, cs2)
    | none => matchUnit rest cs

/-- One numeric-prefix-then-suffix component: a non-empty digit run, an
optional `.`-separated fractional digit run, then a unit suffix.  The
byte value of a fractional component is the floor of fraction times
unit. -/
def parseComponent (cs : List Char) : Option (Nat × List Char) :=
  let ds := cs.takeWhile Char.isDigit
  let rest := cs.dropWhile Char.isDigit
  if ds.isEmpty then none
  else if rest.head? == some '.' then
    let fs := rest.tail.takeWhile Char.isDigit
    let rest3 := rest.tail.dropWhile Char.isDigit
    if fs.isEmpty then none
    else
      match matchUnit unitSuffixes rest3 with
      | some (u, rem) => some (valDigits ds * u + valDigits fs * u / 10 ^ fs.length, rem)
      | none => none
  else
    match matchUnit unitSuffixes rest with
    | some (u, rem) => some (valDigits ds * u, rem)
    | none => none

/-- Repeated component consumption; the fuel (one more than the input
length suffices, as every component consumes at least one character)
keeps the recursion structural. -/
def parseLoop : Nat → List Char → Nat → Option Nat
  | 0, _, _ => none
  | _ + 1, [], acc => some acc
  | fuel + 1, c :: cs, acc =>
    match parseComponent (c :: cs) with
    | some (v, rest) => parseLoop fuel rest (acc + v)
    | none => none

/-- Modelled from the spec: `filesize.Parse` (its source file is not
among the sources at hand), summing numeric-prefix-then-suffix
components until the input is exhausted. -/
def Parse (s : String) : Option Nat := parseLoop (s.data.length + 1) s.data 0

/-! ## The duplicate grouper (`findDuplicateFiles`)

A walked regular file carries path, size, modification time and the
identity of its underlying storage object (`os.SameFile` compares
device+inode; an opaque `Nat` here), plus its content checksum (a hex
string in the source; the hash itself is I/O, so the checksum arrives
with the walk entry). -/

structure FileInfo where
  path : String
  size : Nat
  modTime : Nat
  ident : Nat
  deriving DecidableEq, Inhabited

/-- `os.SameFile`: same underlying storage object. -/
def sameFile (a b : FileInfo) : Bool := a.ident == b.ident

/-- The comparison closure passed to `insertSorted` by
`findDuplicateFiles`: -1 / 0 / 1 as the first record's modification time
is before / equal to / after the second's. -/
def modTimeCmp (a b : FileInfo) : Int :=
  if a.modTime < b.modTime then -1 else if a.modTime = b.modTime then 0 else 1

/-- The loop of Go's `slices.BinarySearchFunc`: narrow `[i, j)` keeping
`cmp x[i-1] < 0` and `0 ≤ cmp x[j]`, returning the meet point, i.e. the
first position whose element is not less than the target.  The fuel
(the initial width suffices, as the width strictly shrinks) keeps the
recursion structural. -/
def binarySearchLoop {A : Type} [Inhabited A] (cmp : A → Int) (xs : List A) :
    Nat → Nat → Nat → Nat
  | 0, i, _ => i
  | fuel + 1, i, j =>
    if i < j then
      let m := (i + j) / 2
      if cmp (xs.getD m default) < 0 then binarySearchLoop cmp xs fuel (m + 1) j
      else binarySearchLoop cmp xs fuel i m
    else i

/-- `slices.BinarySearchFunc xs v cmp` (the returned position; the found
flag is unused by the source). -/
def binarySearchFunc {A : Type} [Inhabited A] (xs : List A) (cmp : A → Int) : Nat :=
  binarySearchLoop cmp xs xs.length 0 xs.length

/-- `insertSorted` (the generic sorted-insertion helper): binary-search
the insertion point, append, shift the tail right one slot and write the
new element, which leaves `take insertAt ++ v :: drop insertAt`. -/
def insertSorted {A : Type} [Inhabited A] (working : List A) (v : A)
    (sorter : A → A → Int) : List A :=
  let insertAt := binarySearchFunc working (fun a => sorter a v)
  working.take insertAt ++ v :: working.drop insertAt

/-- The in-memory `map[string][]fullFileInfo` keyed by checksum,
embedded as an association list in discovery order (Go map iteration
order is unspecified; the savings total below does not depend on it). -/
abbrev Groups := List (String × List FileInfo)

def lookupGroup : Groups → String → Option (List FileInfo)
  | [], _ => none
  | (k, ms) :: rest, cs => if k == cs then some ms else lookupGroup rest cs

def setGroup : Groups → String → List FileInfo → Groups
  | [], _, _ => []
  | (k, ms) :: rest, cs, ms2 =>
    if k == cs then (k, ms2) :: rest else (k, ms) :: setGroup rest cs ms2

/-- One walk entry as delivered to the `filepath.Walk` callback: whether
it is a directory, and for files the checksum and metadata. -/
structure WalkEntry where
  isDir : Bool
  cs : String
  info : FileInfo
  deriving DecidableEq, Inhabited

/-- The per-file body of `findDuplicateFiles`'s walk callback, after the
checksum is available: drop the record if any existing member of its
checksum group is the same underlying file, otherwise insert it in
modification-time order (first member of a fresh key starts a new
group). -/
def insertStep (gs : Groups) (cs : String) (info : FileInfo) : Groups :=
  if ((lookupGroup gs cs).getD []).any (fun e => sameFile info e) then gs
  else
    match lookupGroup gs cs with
    | some seen => setGroup gs cs ( insertSorted seen info modTimeCmp)
    | none => gs ++ [(cs, [info])]

/-- The walk callback: directories are descended into but add nothing,
files below the minimum size are skipped, every other file goes through
`insertStep`. -/
def walkStep (minSizeBytes : Nat) (gs : Groups) (e : WalkEntry) : Groups :=
  if e.isDir then gs
  else if e.info.size < minSizeBytes then gs
  else insertStep gs e.cs e.info

/-- `findDuplicateFiles` over the walk's output. -/
def findDuplicateFiles (minSizeBytes : Nat) (entries : List WalkEntry) : Groups :=
  entries.foldl (walkStep minSizeBytes) []

/-! ## cloneFile and the clone-duplicates executor

`cloneFile` makes both paths absolute, requires the source to exist,
removes an existing target — discarding the removal error, the source
reads `_ = os.Remove(targetAbsolute)` — and calls `unix.Clonefile`,
treating `ENOTSUP` and `EXDEV` as success-without-action and every other
clone error as fatal.  The platform calls are I/O; their outcomes for a
given source/target pair are supplied by a `CloneEnv`, and the
filesystem operations the code performs are reified as an `FsAction`
trace.  There is deliberately no byte-for-byte copy action anywhere:
the source has no copy fallback. -/

inductive CloneResult where
  | ok
  | enotsup
  | exdev
  | err (msg : String)
  deriving DecidableEq, Inhabited

structure CloneEnv where
  absSourceOK : Bool
  absTargetOK : Bool
  sourceExists : Bool
  targetExists : Bool
  /-- Whether `os.Remove` on the existing target fails.  The source
  discards this result (`_ = os.Remove(...)`), so no code below reads
  it; it is kept so that statements can quantify over it. -/
  removeFails : Bool
  cloneResult : CloneResult
  deriving DecidableEq, Inhabited

inductive FsAction where
  | output (s : String)
  | removeFile (path : String)
  | cloneCall (src tgt : String)
  deriving DecidableEq, Inhabited

/-- `cloneFile(source, target)`: the performed actions and the result. -/
def cloneFile (src tgt : String) (env : CloneEnv) : List FsAction × Except String Unit :=
  if !env.absSourceOK then
    ([], Except.error "clone-file failed: unable to make source path absolute")
  else if !env.absTargetOK then
    ([], Except.error "clone-file failed: unable to make target path absolute")
  else if !env.sourceExists then
    ([], Except.error ("clone-file failed: source not found; " ++ src))
  else
    let pre := if env.targetExists then [FsAction.removeFile tgt] else []
    let acts := pre ++ [FsAction.cloneCall src tgt]
    match env.cloneResult with
    | CloneResult.ok => (acts, Except.ok ())
    | CloneResult.enotsup => (acts, Except.ok ())
    | CloneResult.exdev => (acts, Except.ok ())
    | CloneResult.err m => (acts, Except.error ("clone-file failed: " ++ m))

/-- The inner loop of `commandCloneDuplicates` over `fileset[1:]`: the
savings accumulator (`uint64`, hence `% 2 ^ 64`) grows by each target's
size; with `--real` the target is cloned — a clone error aborts
immediately — and without it only the dry-run line is printed.  Message
texts are abbreviated (the source truncates paths for display). -/
def processTargets (real : Bool) (envF : String → String → CloneEnv) (srcPath : String) :
    List FileInfo → Nat → List FsAction × Except String Unit × Nat
  | [], acc => ([], Except.ok (), acc)
  | t :: rest, acc =>
    let acc2 := (acc + t.size) % 2 ^ 64
    if real then
      let r := cloneFile srcPath t.path (envF srcPath t.path)
      match r.2 with
      | Except.error e => (r.1, Except.error e, acc2)
      | Except.ok _ =>
        let k := processTargets real envF srcPath rest acc2
        (r.1 ++ FsAction.output ("Cloned " ++ srcPath ++ " to " ++ t.path) :: k.1,
         k.2.1, k.2.2)
    else
      let k := processTargets real envF srcPath rest acc2
      (FsAction.output ("[DRY-RUN] Would clone " ++ srcPath ++ " to " ++ t.path) :: k.1,
       k.2.1, k.2.2)

/-- The outer loop of `commandCloneDuplicates` over the groups: groups
with fewer than two members are skipped, the canonical source is
`fileset[0]`, and on success the savings total line is printed at the
end (the source formats it with the float-based `FormatFraction`, not
modelled; only the fact that a line is printed is kept). -/
def processGroups (real : Bool) (envF : String → String → CloneEnv) :
    Groups → Nat → List FsAction × Except String Unit × Nat
  | [], acc => ([FsAction.output "Total savings:"], Except.ok (), acc)
  | (_, ms) :: rest, acc =>
    if ms.length < 2 then processGroups real envF rest acc
    else
      let r := processTargets real envF (ms.headD default).path (ms.drop 1) acc
      match r.2.1 with
      | Except.error e => (r.1, Except.error e, r.2.2)
      | Except.ok _ =>
        let k := processGroups real envF rest r.2.2
        (r.1 ++ k.1, k.2.1, k.2.2)

/-- `commandCloneDuplicates` after `findDuplicateFiles`: actions, result
and final savings accumulator. -/
def runCloneDuplicates (real : Bool) (envF : String → String → CloneEnv) (gs : Groups) :
    List FsAction × Except String Unit × Nat :=
  processGroups real envF gs 0

/-! ## commandSameFile

`os.Stat` of each path yields the identity of the underlying object or
fails; a missing path is reported on stdout and the command still
succeeds, equal identities succeed with an affirmative message, and only
two existing distinct objects produce an error. -/

def commandSameFile (sourceStat destStat : Option Nat) : List FsAction × Except String Unit :=
  match sourceStat with
  | none => ([FsAction.output "[SOURCE_FILE] is missing"], Except.ok ())
  | some ia =>
    match destStat with
    | none => ([FsAction.output "[DEST_FILE] is missing"], Except.ok ())
    | some ib =>
      if ia == ib then ([FsAction.output "Files are the same!"], Except.ok ())
      else ([], Except.error "Files are not the same!")

/-! ## truncateStringPrefix

Go's `len(s)` is the byte length while `[]rune(s)` has one entry per
code point, so `if len(s) < length { return s }` does not bound the rune
index: `[]rune(s)[length:]` panics whenever `length` exceeds the rune
count.  The panic is embedded as `none`. -/

def truncateStringPrefix (s : String) (length : Nat) : Option String :=
  if s.utf8ByteSize < length then some s
  else if length ≤ s.data.length then some ("..." ++ String.mk (s.data.drop length))
  else none

/-- Sixteen copies of U+03B1: 32 UTF-8 bytes but only 16 runes. -/
def alphaPath : String := "αααααααααααααααα"

/-! ## Concrete fixtures used by witnesses and counterexamples -/

def fiA : FileInfo := { path := "a", size := 2048, modTime := 5, ident := 1 }

def fiB : FileInfo := { path := "b", size := 4096, modTime := 3, ident := 2 }

def fiC : FileInfo := { path := "c", size := 2048, modTime := 5, ident := 3 }

/-- Same identity as `fiA` through a different path: a hard link or a
second traversal visit of the same storage object. -/
def fiDup : FileInfo := { path := "x", size := 2048, modTime := 9, ident := 1 }

def weA : WalkEntry := { isDir := false, cs := "h1", info := fiA }

def weB : WalkEntry := { isDir := false, cs := "h1", info := fiB }

def envAllOK : CloneEnv :=
  { absSourceOK := true, absTargetOK := true, sourceExists := true,
    targetExists := true, removeFails := false, cloneResult := CloneResult.ok }

def envRemoveFails : CloneEnv := { envAllOK with removeFails := true }

def envBadClone : CloneEnv := { envAllOK with cloneResult := CloneResult.err "EIO" }

def envNotSup : CloneEnv := { envAllOK with cloneResult := CloneResult.enotsup }

def envFOK : String → String → CloneEnv := fun _ _ => envAllOK

def envFBad : String → String → CloneEnv := fun _ _ => envBadClone

/-! # Theorems

First the format/parse layer: the `Format` loop is proved equal to the
single tier pass `tierSplit`, the emitted components sum back to the
input, and parsing the rendering of any well-formed component list
recovers the sum. -/

theorem tierStep_pos (u : Nat) (ps : List (Nat × Nat)) (r : Nat) (h : u < r) :
    tierStep u (ps, r) = (ps ++ [(r / u, u)], r % u) := by
  simp [tierStep, h]

theorem tierStep_neg (u : Nat) (ps : List (Nat × Nat)) (r : Nat) (h : ¬ u < r) :
    tierStep u (ps, r) = (ps, r) := by
  simp [tierStep, h]

theorem tierStep_cons (u : Nat) (p : Nat × Nat) (ps : List (Nat × Nat)) (r : Nat) :
    tierStep u (p :: ps, r) = (p :: (tierStep u (ps, r)).1, (tierStep u (ps, r)).2) := by
  by_cases h : u < r
  · simp [tierStep, h]
  · simp [tierStep, h]

theorem tierSplit_low {rem : Nat} (h : rem ≤ kilobyte) : tierSplit rem = ([], rem) := by
  simp [tierSplit, h]

theorem tierSplit_tb {rem : Nat} (h : terabyte < rem) :
    tierSplit rem = ((rem / terabyte, terabyte) :: (tierSplit (rem % terabyte)).1,
                     (tierSplit (rem % terabyte)).2) := by
  have hk : ¬ rem ≤ kilobyte := by simp only [kilobyte, terabyte] at *; omega
  have hm : ¬ terabyte < rem % terabyte := by
    have := Nat.mod_lt rem (show 0 < terabyte by simp [terabyte])
    omega
  rw [tierSplit, if_neg hk, tierStep_pos terabyte [] rem h]
  simp only [List.nil_append]
  by_cases h2 : rem % terabyte ≤ kilobyte
  · have hg : ¬ gigabyte < rem % terabyte := by
      simp only [kilobyte, gigabyte] at *; omega
    have hmb : ¬ megabyte < rem % terabyte := by
      simp only [kilobyte, megabyte] at *; omega
    have hkb : ¬ kilobyte < rem % terabyte := by omega
    rw [tierSplit_low h2, tierStep_neg _ _ _ hg, tierStep_neg _ _ _ hmb,
      tierStep_neg _ _ _ hkb]
  · rw [tierSplit, if_neg h2, tierStep_neg _ _ _ hm]
    rw [tierStep_cons gigabyte, tierStep_cons megabyte, tierStep_cons kilobyte]

theorem tierSplit_gb {rem : Nat} (h1 : ¬ terabyte < rem) (h2 : gigabyte < rem) :
    tierSplit rem = ((rem / gigabyte, gigabyte) :: (tierSplit (rem % gigabyte)).1,
                     (tierSplit (rem % gigabyte)).2) := by
  have hk : ¬ rem ≤ kilobyte := by simp only [kilobyte, gigabyte] at *; omega
  have hm : ¬ gigabyte < rem % gigabyte := by
    have := Nat.mod_lt rem (show 0 < gigabyte by simp [gigabyte])
    omega
  have htb : ¬ terabyte < rem % gigabyte := by
    simp only [terabyte, gigabyte] at *; omega
  rw [tierSplit, if_neg hk, tierStep_neg _ _ _ h1, tierStep_pos gigabyte [] rem h2]
  simp only [List.nil_append]
  by_cases h3 : rem % gigabyte ≤ kilobyte
  · have hmb : ¬ megabyte < rem % gigabyte := by
      simp only [kilobyte, megabyte] at *; omega
    have hkb : ¬ kilobyte < rem % gigabyte := by omega
    rw [tierSplit_low h3, tierStep_neg _ _ _ hmb, tierStep_neg _ _ _ hkb]
  · rw [tierSplit, if_neg h3, tierStep_neg _ _ _ htb, tierStep_neg _ _ _ hm]
    rw [tierStep_cons megabyte, tierStep_cons kilobyte]

theorem tierSplit_mb {rem : Nat} (h1 : ¬ gigabyte < rem) (h2 : megabyte < rem) :
    tierSplit rem = ((rem / megabyte, megabyte) :: (tierSplit (rem % megabyte)).1,
                     (tierSplit (rem % megabyte)).2) := by
  have hk : ¬ rem ≤ kilobyte := by simp only [kilobyte, megabyte] at *; omega
  have htb : ¬ terabyte < rem := by simp only [terabyte, gigabyte] at h1 ⊢; omega
  have hm : ¬ megabyte < rem % megabyte := by
    have := Nat.mod_lt rem (show 0 < megabyte by simp [megabyte])
    omega
  have htb2 : ¬ terabyte < rem % megabyte := by
    simp only [terabyte, megabyte] at *; omega
  have hgb2 : ¬ gigabyte < rem % megabyte := by
    simp only [gigabyte, megabyte] at *; omega
  rw [tierSplit, if_neg hk, tierStep_neg _ _ _ htb, tierStep_neg _ _ _ h1,
    tierStep_pos megabyte [] rem h2]
  simp only [List.nil_append]
  by_cases h3 : rem % megabyte ≤ kilobyte
  · have hkb : ¬ kilobyte < rem % megabyte := by omega
    rw [tierSplit_low h3, tierStep_neg _ _ _ hkb]
  · rw [tierSplit, if_neg h3, tierStep_neg _ _ _ htb2, tierStep_neg _ _ _ hgb2,
      tierStep_neg _ _ _ hm]
    rw [tierStep_cons kilobyte]

theorem tierSplit_kb {rem : Nat} (h1 : ¬ megabyte < rem) (h2 : kilobyte < rem) :
    tierSplit rem = ((rem / kilobyte, kilobyte) :: (tierSplit (rem % kilobyte)).1,
                     (tierSplit (rem % kilobyte)).2) := by
  have hk : ¬ rem ≤ kilobyte := by omega
  have htb : ¬ terabyte < rem := by simp only [terabyte, megabyte] at h1 ⊢; omega
  have hgb : ¬ gigabyte < rem := by simp only [gigabyte, megabyte] at h1 ⊢; omega
  have hlow : rem % kilobyte ≤ kilobyte := by
    have := Nat.mod_lt rem (show 0 < kilobyte by simp [kilobyte])
    omega
  rw [tierSplit, if_neg hk, tierStep_neg _ _ _ htb, tierStep_neg _ _ _ hgb,
    tierStep_neg _ _ _ h1, tierStep_pos kilobyte [] rem h2]
  rw [tierSplit_low hlow]
  simp

theorem suffixFor_tb : suffixFor terabyte = ['t', 'b'] := by decide

theorem suffixFor_gb : suffixFor gigabyte = ['g', 'b'] := by decide

theorem suffixFor_mb : suffixFor megabyte = ['m', 'b'] := by decide

theorem suffixFor_kb : suffixFor kilobyte = ['k', 'b'] := by decide

theorem suffixFor_one : suffixFor 1 = ['b'] := by decide

theorem renderParts_append (xs ys : List (Nat × Nat)) :
    renderParts (xs ++ ys) = renderParts xs ++ renderParts ys := by
  induction xs with
  | nil => simp [renderParts]
  | cons p t IH => simp [renderParts, IH]

theorem partsSum_append (xs ys : List (Nat × Nat)) :
    partsSum (xs ++ ys) = partsSum xs + partsSum ys := by
  induction xs with
  | nil => simp [partsSum]
  | cons p t IH => simp [partsSum, IH]; omega

theorem tierStep_sum (u : Nat) (s : List (Nat × Nat) × Nat) :
    partsSum (tierStep u s).1 + (tierStep u s).2 = partsSum s.1 + s.2 := by
  obtain ⟨ps, r⟩ := s
  by_cases h : u < r
  · rw [tierStep_pos u ps r h, partsSum_append]
    have hr : r / u * u + r % u = r := by rw [mul_comm]; exact Nat.div_add_mod r u
    simp only [partsSum]
    omega
  · rw [tierStep_neg u ps r h]

theorem tierSplit_sum (rem : Nat) :
    partsSum (tierSplit rem).1 + (tierSplit rem).2 = rem := by
  by_cases h : rem ≤ kilobyte
  · rw [tierSplit_low h]; simp [partsSum]
  · rw [tierSplit, if_neg h, tierStep_sum, tierStep_sum, tierStep_sum, tierStep_sum]
    simp [partsSum]

theorem formatParts_sum (n : Nat) : partsSum (formatParts n) = n := by
  by_cases h : n < kilobyte
  · rw [formatParts, if_pos h]; simp [partsSum]
  · rw [formatParts, if_neg h]
    have hs := tierSplit_sum n
    by_cases h2 : 0 < (tierSplit n).2
    · rw [if_pos h2, partsSum_append]; simp only [partsSum]; omega
    · rw [if_neg h2]; omega

theorem formatLoop_eq (rem : Nat) : ∀ out : List Char,
    formatLoop rem out = (out ++ renderParts (tierSplit rem).1, (tierSplit rem).2) := by
  induction rem using Nat.strong_induction_on with
  | _ rem IH =>
    intro out
    by_cases h1 : kilobyte < rem
    · by_cases h2 : terabyte < rem
      · have hmod : rem - rem / terabyte * terabyte = rem % terabyte := by
          simp only [terabyte]; omega
        have hlt : rem % terabyte < rem := by
          simp only [kilobyte, terabyte] at h1 h2 ⊢; omega
        rw [formatLoop, dif_pos h1, dif_pos h2, hmod, IH _ hlt, tierSplit_tb h2]
        simp [renderParts, renderPart, suffixFor_tb, List.append_assoc]
      · by_cases h3 : gigabyte < rem
        · have hmod : rem - rem / gigabyte * gigabyte = rem % gigabyte := by
            simp only [gigabyte]; omega
          have hlt : rem % gigabyte < rem := by
            simp only [kilobyte, gigabyte] at h1 h3 ⊢; omega
          rw [formatLoop, dif_pos h1, dif_neg h2, dif_pos h3, hmod, IH _ hlt,
            tierSplit_gb h2 h3]
          simp [renderParts, renderPart, suffixFor_gb, List.append_assoc]
        · by_cases h4 : megabyte < rem
          · have hmod : rem - rem / megabyte * megabyte = rem % megabyte := by
              simp only [megabyte]; omega
            have hlt : rem % megabyte < rem := by
              simp only [kilobyte, megabyte] at h1 h4 ⊢; omega
            rw [formatLoop, dif_pos h1, dif_neg h2, dif_neg h3, dif_pos h4, hmod,
              IH _ hlt, tierSplit_mb h3 h4]
            simp [renderParts, renderPart, suffixFor_mb, List.append_assoc]
          · have hmod : rem - rem / kilobyte * kilobyte = rem % kilobyte := by
              simp only [kilobyte]; omega
            have hlt : rem % kilobyte < rem := by
              simp only [kilobyte] at h1 ⊢; omega
            rw [formatLoop, dif_pos h1, dif_neg h2, dif_neg h3, dif_neg h4, hmod,
              IH _ hlt, tierSplit_kb h4 h1]
            simp [renderParts, renderPart, suffixFor_kb, List.append_assoc]
    · rw [formatLoop, dif_neg h1, tierSplit_low (by omega)]
      simp [renderParts]

theorem Format_eq_renderParts (n : Nat) :
    Format n = String.mk (renderParts (formatParts n)) := by
  by_cases h : n < kilobyte
  · rw [Format, if_pos h, formatParts, if_pos h]
    have hr : renderParts [(n, 1)] = (Nat.repr n).data ++ ['b'] := by
      simp [renderParts, renderPart, suffixFor_one]
    rw [hr]
    apply String.ext
    rw [String.data_append]
  · rw [Format, if_neg h, formatParts, if_neg h, formatLoop_eq n []]
    simp only [List.nil_append]
    by_cases h2 : 0 < (tierSplit n).2
    · rw [if_pos h2, if_pos h2, renderParts_append]
      have hr : renderParts [((tierSplit n).2, 1)] = (Nat.repr (tierSplit n).2).data ++ ['b'] := by
        simp [renderParts, renderPart, suffixFor_one]
      rw [hr, List.append_assoc]
    · rw [if_neg h2, if_neg h2]

theorem digitChar_isDigit : ∀ m : Nat, m < 10 → (Nat.digitChar m).isDigit = true := by
  decide

theorem digitChar_val : ∀ m : Nat, m < 10 → charVal (Nat.digitChar m) = m := by
  decide

theorem toDigitsCore_acc (fuel : Nat) : ∀ (n : Nat) (ds : List Char),
    Nat.toDigitsCore 10 fuel n ds = Nat.toDigitsCore 10 fuel n [] ++ ds := by
  induction fuel with
  | zero => intro n ds; simp [Nat.toDigitsCore]
  | succ f IH =>
    intro n ds
    rw [Nat.toDigitsCore, Nat.toDigitsCore]
    by_cases h : n / 10 = 0
    · simp [h]
    · simp only [h, if_false]
      rw [IH (n / 10) (Nat.digitChar (n % 10) :: ds), IH (n / 10) [Nat.digitChar (n % 10)]]
      simp

theorem toDigitsCore_digits (fuel : Nat) : ∀ (n : Nat) (c : Char),
    c ∈ Nat.toDigitsCore 10 fuel n [] → c.isDigit = true := by
  induction fuel with
  | zero => intro n c hc; simp [Nat.toDigitsCore] at hc
  | succ f IH =>
    intro n c hc
    rw [Nat.toDigitsCore] at hc
    by_cases h : n / 10 = 0
    · simp [h] at hc
      rw [hc]
      exact digitChar_isDigit (n % 10) (Nat.mod_lt n (by omega))
    · simp only [h, if_false] at hc
      rw [toDigitsCore_acc] at hc
      rcases List.mem_append.mp hc with h1 | h1
      · exact IH (n / 10) c h1
      · simp at h1
        rw [h1]
        exact digitChar_isDigit (n % 10) (Nat.mod_lt n (by omega))

theorem valDigits_append (ds : List Char) (c : Char) :
    valDigits (ds ++ [c]) = valDigits ds * 10 + charVal c := by
  simp [valDigits, List.foldl_append]

theorem valDigits_toDigitsCore (fuel : Nat) : ∀ n : Nat, n < 10 ^ fuel →
    valDigits (Nat.toDigitsCore 10 fuel n []) = n := by
  induction fuel with
  | zero =>
    intro n h
    have : n = 0 := by simpa using h
    subst this
    simp [Nat.toDigitsCore, valDigits]
  | succ f IH =>
    intro n h
    rw [Nat.toDigitsCore]
    by_cases h0 : n / 10 = 0
    · have hn : n < 10 := by omega
      simp only [h0, if_true]
      simp [valDigits, digitChar_val (n % 10) (Nat.mod_lt n (by omega))]
      omega
    · simp only [h0, if_false]
      rw [toDigitsCore_acc, valDigits_append]
      have hdiv : n / 10 < 10 ^ f := by
        apply Nat.div_lt_of_lt_mul
        calc n < 10 ^ (f + 1) := h
          _ = 10 * 10 ^ f := by ring
      rw [IH (n / 10) hdiv, digitChar_val (n % 10) (Nat.mod_lt n (by omega))]
      omega

theorem repr_data_eq (n : Nat) : (Nat.repr n).data = Nat.toDigitsCore 10 (n + 1) n [] := rfl

theorem n_lt_ten_pow (n : Nat) : n < 10 ^ (n + 1) := by
  have h1 : n < 2 ^ n := Nat.lt_two_pow n
  have h2 : 2 ^ n ≤ 10 ^ n := Nat.pow_le_pow_left (by norm_num) n
  have h3 : (10 : Nat) ^ n ≤ 10 ^ (n + 1) := Nat.pow_le_pow_right (by norm_num) (by omega)
  omega

theorem valDigits_repr (n : Nat) : valDigits (Nat.repr n).data = n := by
  rw [repr_data_eq]
  exact valDigits_toDigitsCore (n + 1) n (n_lt_ten_pow n)

theorem repr_all_digits (n : Nat) : ∀ c ∈ (Nat.repr n).data, c.isDigit = true := by
  rw [repr_data_eq]
  intro c hc
  exact toDigitsCore_digits (n + 1) n c hc

theorem repr_ne_nil (n : Nat) : (Nat.repr n).data ≠ [] := by
  rw [repr_data_eq, Nat.toDigitsCore]
  by_cases h : n / 10 = 0
  · simp [h]
  · simp only [h, if_false]
    rw [toDigitsCore_acc]
    simp

theorem takeWhile_append_all {p : Char → Bool} : ∀ (xs ys : List Char),
    (∀ x ∈ xs, p x = true) → (∀ y, ys.head? = some y → p y = false) →
    List.takeWhile p (xs ++ ys) = xs := by
  intro xs
  induction xs with
  | nil =>
    intro ys _ hy
    cases ys with
    | nil => simp
    | cons y t => simp [List.takeWhile_cons, hy y rfl]
  | cons x t IH =>
    intro ys hx hy
    have hpx : p x = true := hx x (by simp)
    simp [List.cons_append, List.takeWhile_cons, hpx,
      IH ys (fun a ha => hx a (by simp [ha])) hy]

theorem dropWhile_append_all {p : Char → Bool} : ∀ (xs ys : List Char),
    (∀ x ∈ xs, p x = true) → (∀ y, ys.head? = some y → p y = false) →
    List.dropWhile p (xs ++ ys) = ys := by
  intro xs
  induction xs with
  | nil =>
    intro ys _ hy
    cases ys with
    | nil => simp
    | cons y t => simp [List.dropWhile_cons, hy y rfl]
  | cons x t IH =>
    intro ys hx hy
    have hpx : p x = true := hx x (by simp)
    simp [List.cons_append, List.dropWhile_cons, hpx,
      IH ys (fun a ha => hx a (by simp [ha])) hy]

theorem isDigit_beq_false {y c : Char} (hy : y.isDigit = true) (hc : c.isDigit = false) :
    (y == c) = false := by
  cases hbe : y == c
  · rfl
  · rw [eq_of_beq hbe] at hy
    rw [hy] at hc
    cases hc

theorem matchUnit_tb (rest : List Char) :
    matchUnit unitSuffixes (['t', 'b'] ++ rest) = some (terabyte, rest) := by
  simp [matchUnit, unitSuffixes, stripCase]

theorem matchUnit_gb (rest : List Char) :
    matchUnit unitSuffixes (['g', 'b'] ++ rest) = some (gigabyte, rest) := by
  simp [matchUnit, unitSuffixes, stripCase]

theorem matchUnit_mb (rest : List Char) :
    matchUnit unitSuffixes (['m', 'b'] ++ rest) = some (megabyte, rest) := by
  simp [matchUnit, unitSuffixes, stripCase]

theorem matchUnit_kb (rest : List Char) :
    matchUnit unitSuffixes (['k', 'b'] ++ rest) = some (kilobyte, rest) := by
  simp [matchUnit, unitSuffixes, stripCase]

theorem matchUnit_b (rest : List Char)
    (hrest : ∀ y, rest.head? = some y → y.isDigit = true) :
    matchUnit unitSuffixes (['b'] ++ rest) = some (1, rest) := by
  cases rest with
  | nil => simp [matchUnit, unitSuffixes, stripCase]
  | cons y t =>
    have hy := hrest y rfl
    have h1 : (y == 'y') = false := isDigit_beq_false hy (by decide)
    have h2 : (y == 'Y') = false := isDigit_beq_false hy (by decide)
    simp [matchUnit, unitSuffixes, stripCase, h1, h2]

theorem parseComponent_render_gen (v u : Nat) (sfx rest : List Char)
    (hhead : ∀ y, (sfx ++ rest).head? = some y → Char.isDigit y = false)
    (hdot : ((sfx ++ rest).head? == some '.') = false)
    (hmatch : matchUnit unitSuffixes (sfx ++ rest) = some (u, rest)) :
    parseComponent ((Nat.repr v).data ++ (sfx ++ rest)) = some (v * u, rest) := by
  have hempf : ((Nat.repr v).data).isEmpty = false := by
    cases hd : (Nat.repr v).data with
    | nil => exact absurd hd (repr_ne_nil v)
    | cons a b => simp
  simp only [parseComponent]
  rw [takeWhile_append_all _ _ (repr_all_digits v) hhead,
      dropWhile_append_all _ _ (repr_all_digits v) hhead, hempf, hdot]
  simp [hmatch, valDigits_repr]

theorem parseComponent_render (v u : Nat) (rest : List Char)
    (hu : u = terabyte ∨ u = gigabyte ∨ u = megabyte ∨ u = kilobyte ∨ u = 1)
    (hrest : ∀ y, rest.head? = some y → y.isDigit = true) :
    parseComponent ((Nat.repr v).data ++ (suffixFor u ++ rest)) = some (v * u, rest) := by
  rcases hu with h | h | h | h | h <;> subst h
  · rw [suffixFor_tb]
    apply parseComponent_render_gen
    · intro y hy
      simp at hy
      rw [← hy]
      decide
    · simp
    · exact matchUnit_tb rest
  · rw [suffixFor_gb]
    apply parseComponent_render_gen
    · intro y hy
      simp at hy
      rw [← hy]
      decide
    · simp
    · exact matchUnit_gb rest
  · rw [suffixFor_mb]
    apply parseComponent_render_gen
    · intro y hy
      simp at hy
      rw [← hy]
      decide
    · simp
    · exact matchUnit_mb rest
  · rw [suffixFor_kb]
    apply parseComponent_render_gen
    · intro y hy
      simp at hy
      rw [← hy]
      decide
    · simp
    · exact matchUnit_kb rest
  · rw [suffixFor_one]
    apply parseComponent_render_gen
    · intro y hy
      simp at hy
      rw [← hy]
      decide
    · simp
    · exact matchUnit_b rest hrest

theorem renderPart_ne_nil (p : Nat × Nat) : renderPart p ≠ [] := by
  rw [renderPart]
  intro hc
  exact repr_ne_nil p.1 (List.append_eq_nil.mp hc).1

theorem renderParts_head_digit (t : List (Nat × Nat)) :
    ∀ y, (renderParts t).head? = some y → y.isDigit = true := by
  cases t with
  | nil => simp [renderParts]
  | cons q s =>
    intro y hy
    have hq : renderParts (q :: s) = (Nat.repr q.1).data ++ (suffixFor q.2 ++ renderParts s) := by
      simp [renderParts, renderPart, List.append_assoc]
    rw [hq] at hy
    cases hd : (Nat.repr q.1).data with
    | nil => exact absurd hd (repr_ne_nil q.1)
    | cons c cs =>
      rw [hd] at hy
      simp at hy
      rw [← hy]
      exact repr_all_digits q.1 c (by rw [hd]; simp)

theorem renderParts_length (ps : List (Nat × Nat)) :
    ps.length ≤ (renderParts ps).length := by
  induction ps with
  | nil => simp [renderParts]
  | cons p t IH =>
    have h1 : 1 ≤ (renderPart p).length := by
      cases hd : renderPart p with
      | nil => exact absurd hd (renderPart_ne_nil p)
      | cons c cs => simp
    simp only [renderParts, List.length_cons, List.length_append]
    omega

theorem parseLoop_render : ∀ (ps : List (Nat × Nat)) (fuel acc : Nat),
    (∀ p ∈ ps, p.2 = terabyte ∨ p.2 = gigabyte ∨ p.2 = megabyte ∨
      p.2 = kilobyte ∨ p.2 = 1) →
    ps.length < fuel →
    parseLoop fuel (renderParts ps) acc = some (acc + partsSum ps) := by
  intro ps
  induction ps with
  | nil =>
    intro fuel acc _ hf
    obtain ⟨f, rfl⟩ : ∃ f, fuel = f + 1 := ⟨fuel - 1, by omega⟩
    simp [renderParts, parseLoop, partsSum]
  | cons p t IH =>
    intro fuel acc hwf hf
    obtain ⟨f, rfl⟩ : ∃ f, fuel = f + 1 := ⟨fuel - 1, by omega⟩
    have hrender : renderParts (p :: t) =
        (Nat.repr p.1).data ++ (suffixFor p.2 ++ renderParts t) := by
      simp [renderParts, renderPart, List.append_assoc]
    have hcomp : parseComponent (renderParts (p :: t)) = some (p.1 * p.2, renderParts t) := by
      rw [hrender]
      exact parseComponent_render p.1 p.2 (renderParts t) (hwf p (by simp))
        (renderParts_head_digit t)
    obtain ⟨c, cs, hcons⟩ : ∃ c cs, renderParts (p :: t) = c :: cs := by
      cases hr : renderParts (p :: t) with
      | nil =>
        have := renderPart_ne_nil p
        rw [renderParts] at hr
        exact absurd (List.append_eq_nil.mp hr).1 this
      | cons c cs => exact ⟨c, cs, rfl⟩
    rw [hcons]
    rw [parseLoop]
    rw [← hcons, hcomp]
    have hstep := IH f (acc + p.1 * p.2) (fun q hq => hwf q (by simp [hq]))
      (by simp only [List.length_cons] at hf; omega)
    show parseLoop f (renderParts t) (acc + p.1 * p.2) = some (acc + partsSum (p :: t))
    rw [hstep, partsSum, ← Nat.add_assoc]

theorem Parse_renderParts (ps : List (Nat × Nat))
    (hwf : ∀ p ∈ ps, p.2 = terabyte ∨ p.2 = gigabyte ∨ p.2 = megabyte ∨
      p.2 = kilobyte ∨ p.2 = 1) :
    Parse (String.mk (renderParts ps)) = some (partsSum ps) := by
  have h := parseLoop_render ps ((renderParts ps).length + 1) 0 hwf
    (by have := renderParts_length ps; omega)
  simpa [Parse] using h

theorem tierStep_mem (u : Nat) (s : List (Nat × Nat) × Nat) {p : Nat × Nat}
    (hp : p ∈ (tierStep u s).1) : p ∈ s.1 ∨ p.2 = u := by
  obtain ⟨ps, r⟩ := s
  by_cases h : u < r
  · rw [tierStep_pos u ps r h] at hp
    simp at hp
    rcases hp with hp | hp
    · exact Or.inl hp
    · rw [hp]
      exact Or.inr rfl
  · rw [tierStep_neg u ps r h] at hp
    exact Or.inl hp

theorem tierSplit_units (rem : Nat) : ∀ p ∈ (tierSplit rem).1,
    p.2 = terabyte ∨ p.2 = gigabyte ∨ p.2 = megabyte ∨ p.2 = kilobyte := by
  by_cases h : rem ≤ kilobyte
  · rw [tierSplit_low h]
    simp
  · rw [tierSplit, if_neg h]
    intro p hp
    rcases tierStep_mem _ _ hp with h1 | h1
    · rcases tierStep_mem _ _ h1 with h2 | h2
      · rcases tierStep_mem _ _ h2 with h3 | h3
        · rcases tierStep_mem _ _ h3 with h4 | h4
          · simp at h4
          · exact Or.inl h4
        · exact Or.inr (Or.inl h3)
      · exact Or.inr (Or.inr (Or.inl h2))
    · exact Or.inr (Or.inr (Or.inr h1))

theorem formatParts_units (n : Nat) : ∀ p ∈ formatParts n,
    p.2 = terabyte ∨ p.2 = gigabyte ∨ p.2 = megabyte ∨ p.2 = kilobyte ∨ p.2 = 1 := by
  rw [formatParts]
  by_cases h : n < kilobyte
  · rw [if_pos h]
    simp
  · rw [if_neg h]
    by_cases h2 : 0 < (tierSplit n).2
    · rw [if_pos h2]
      intro p hp
      rcases List.mem_append.mp hp with h3 | h3
      · rcases tierSplit_units n p h3 with h4 | h4 | h4 | h4
        · exact Or.inl h4
        · exact Or.inr (Or.inl h4)
        · exact Or.inr (Or.inr (Or.inl h4))
        · exact Or.inr (Or.inr (Or.inr (Or.inl h4)))
      · simp at h3
        rw [h3]
        simp
    · rw [if_neg h2]
      intro p hp
      rcases tierSplit_units n p hp with h4 | h4 | h4 | h4
      · exact Or.inl h4
      · exact Or.inr (Or.inl h4)
      · exact Or.inr (Or.inr (Or.inl h4))
      · exact Or.inr (Or.inr (Or.inr (Or.inl h4)))

/-- C6: round-trip of the compact form.  For every non-negative byte
count `n`, parsing the compact formatted string of `n` recovers exactly
`n` bytes: `Parse (Format n) = some n`. -/
theorem parse_format_roundtrip : ∀ n : Nat, Parse (Format n) = some n := by
  intro n
  rw [Format_eq_renderParts, Parse_renderParts (formatParts n) (formatParts_units n),
    formatParts_sum]

/-- C5 counterexample: the claim's quotient-non-zero greedy rule fails
at the concrete input 2^10 = 1024: the kb quotient is 1 (non-zero) yet
`Format` emits no kb component, rendering "1024b" where the claimed
decomposition (`formatGreedySpec`, written from the claim's words)
renders "1kb"; likewise the claim's exact-unit-multiple example 2^40
renders "1024gb", not the single highest-tier component "1tb". -/
theorem format_greedy_counterexample :
    Format 1024 = "1024b" ∧ formatGreedySpec 1024 = "1kb" ∧
    Format 1024 ≠ formatGreedySpec 1024 ∧
    Format 1099511627776 = "1024gb" ∧ formatGreedySpec 1099511627776 = "1tb" := by
  refine ⟨?_, ?_, ?_, ?_, ?_⟩
  · rw [Format_eq_renderParts]; decide
  · decide
  · rw [Format_eq_renderParts]; decide
  · rw [Format_eq_renderParts]; decide
  · decide

/-- C5 (amended): `Format` emits one integer component per unit tier
exactly when the running remainder is strictly greater than that unit
(`formatParts`/`tierSplit`, the strict `>` of the source), concatenated
without separators, the emitted components summing back to the input; a
trailing zero remainder emits no "0b" and `Format 0 = "0b"`.  An exact
unit multiple is therefore rendered at the next lower tier
(`Format 1024 = "1024b"`, `Format (2^40) = "1024gb"`), while the
claim's other examples hold as stated. -/
theorem format_strict_greedy :
    (∀ n : Nat, Format n = String.mk (renderParts (formatParts n)) ∧
      partsSum (formatParts n) = n) ∧
    Format 0 = "0b" ∧ Format 5 = "5b" ∧ Format (5 * 1048576) = "5mb" ∧
    Format (5 * 1048576 + 10 * 1024) = "5mb10kb" ∧
    Format 1024 = "1024b" ∧ Format 1099511627776 = "1024gb" := by
  refine ⟨fun n => ⟨Format_eq_renderParts n, formatParts_sum n⟩, ?_, ?_, ?_, ?_, ?_, ?_⟩
  · rw [Format_eq_renderParts]; decide
  · rw [Format_eq_renderParts]; decide
  · rw [Format_eq_renderParts]; decide
  · rw [Format_eq_renderParts]; decide
  · rw [Format_eq_renderParts]; decide
  · rw [Format_eq_renderParts]; decide

/-! ### The binary-search insertion of the grouper -/

theorem binarySearchLoop_le {A : Type} [Inhabited A] (cmp : A → Int) (xs : List A) :
    ∀ (fuel i j : Nat), i ≤ j →
    i ≤ binarySearchLoop cmp xs fuel i j ∧ binarySearchLoop cmp xs fuel i j ≤ j := by
  intro fuel
  induction fuel with
  | zero => intro i j hij; simp [binarySearchLoop]; omega
  | succ f IH =>
    intro i j hij
    rw [binarySearchLoop]
    by_cases h : i < j
    · rw [if_pos h]
      by_cases hc : cmp (xs.getD ((i + j) / 2) default) < 0
      · rw [if_pos hc]
        have := IH ((i + j) / 2 + 1) j (by omega)
        omega
      · rw [if_neg hc]
        have := IH i ((i + j) / 2) (by omega)
        omega
    · rw [if_neg h]
      omega

theorem binarySearchLoop_spec {A : Type} [Inhabited A] (cmp : A → Int) (xs : List A) :
    ∀ (fuel i j : Nat), j - i ≤ fuel → i ≤ j → j ≤ xs.length →
    (∀ k, k < i → cmp (xs.getD k default) < 0) →
    (∀ k, j ≤ k → k < xs.length → 0 ≤ cmp (xs.getD k default)) →
    (∀ p q, p ≤ q → q < xs.length → 0 ≤ cmp (xs.getD p default) →
      0 ≤ cmp (xs.getD q default)) →
    (∀ k, k < binarySearchLoop cmp xs fuel i j → cmp (xs.getD k default) < 0) ∧
    (∀ k, binarySearchLoop cmp xs fuel i j ≤ k → k < xs.length →
      0 ≤ cmp (xs.getD k default)) := by
  intro fuel
  induction fuel with
  | zero =>
    intro i j hfuel hij hj hlo hhi _
    have hji : i = j := by omega
    subst hji
    simp only [binarySearchLoop]
    exact ⟨hlo, hhi⟩
  | succ f IH =>
    intro i j hfuel hij hj hlo hhi hmono
    rw [binarySearchLoop]
    by_cases hij2 : i < j
    · rw [if_pos hij2]
      have hmlen : (i + j) / 2 < xs.length := by omega
      by_cases hc : cmp (xs.getD ((i + j) / 2) default) < 0
      · rw [if_pos hc]
        apply IH ((i + j) / 2 + 1) j (by omega) (by omega) hj
        · intro k hk
          by_contra hk2
          have h0 : 0 ≤ cmp (xs.getD k default) := Int.not_lt.mp hk2
          have := hmono k ((i + j) / 2) (by omega) hmlen h0
          omega
        · exact hhi
        · exact hmono
      · rw [if_neg hc]
        have h0 : 0 ≤ cmp (xs.getD ((i + j) / 2) default) := Int.not_lt.mp hc
        apply IH i ((i + j) / 2) (by omega) (by omega) (by omega) hlo
        · intro k hk hklen
          exact hmono ((i + j) / 2) k hk hklen h0
        · exact hmono
    · rw [if_neg hij2]
      have hji : i = j := by omega
      subst hji
      exact ⟨hlo, hhi⟩

theorem binarySearchFunc_le {A : Type} [Inhabited A] (xs : List A) (cmp : A → Int) :
    binarySearchFunc xs cmp ≤ xs.length :=
  (binarySearchLoop_le cmp xs xs.length 0 xs.length (by omega)).2

theorem binarySearchFunc_spec {A : Type} [Inhabited A] (xs : List A) (cmp : A → Int)
    (hmono : ∀ p q, p ≤ q → q < xs.length → 0 ≤ cmp (xs.getD p default) →
      0 ≤ cmp (xs.getD q default)) :
    (∀ k, k < binarySearchFunc xs cmp → cmp (xs.getD k default) < 0) ∧
    (∀ k, binarySearchFunc xs cmp ≤ k → k < xs.length → 0 ≤ cmp (xs.getD k default)) := by
  apply binarySearchLoop_spec cmp xs xs.length 0 xs.length (by omega) (by omega) (le_refl _)
  · intro k hk
    exact absurd hk (Nat.not_lt_zero k)
  · intro k h1 h2
    exact absurd h2 (by omega)
  · exact hmono

theorem insertSorted_perm {A : Type} [Inhabited A] (working : List A) (v : A)
    (sorter : A → A → Int) : List.Perm ( insertSorted working v sorter) (v :: working) := by
  simp only [insertSorted]
  have h1 : List.Perm
      (working.take (binarySearchFunc working fun a => sorter a v) ++
        v :: working.drop (binarySearchFunc working fun a => sorter a v))
      (v :: (working.take (binarySearchFunc working fun a => sorter a v) ++
        working.drop (binarySearchFunc working fun a => sorter a v))) := List.perm_middle
  rw [List.take_append_drop] at h1
  exact h1

theorem insertSorted_length {A : Type} [Inhabited A] (working : List A) (v : A)
    (sorter : A → A → Int) :
    ( insertSorted working v sorter).length = working.length + 1 := by
  have := (insertSorted_perm working v sorter).length_eq
  simpa using this

theorem modTimeCmp_lt {a v : FileInfo} : modTimeCmp a v < 0 ↔ a.modTime < v.modTime := by
  unfold modTimeCmp
  split_ifs <;> omega

theorem modTimeCmp_nonneg {a v : FileInfo} : 0 ≤ modTimeCmp a v ↔ v.modTime ≤ a.modTime := by
  unfold modTimeCmp
  split_ifs <;> omega

/-- The sorted lower-bound insertion of `insertSorted` with the
modification-time comparator: the new record lands after the strictly
earlier records and before every record with an equal or later
modification time. -/
theorem insertSorted_core (ms : List FileInfo) (v : FileInfo)
    (hs : List.Pairwise (fun a b => a.modTime ≤ b.modTime) ms) :
    ∃ r, r ≤ ms.length ∧ insertSorted ms v modTimeCmp = ms.take r ++ v :: ms.drop r ∧
      (∀ a ∈ ms.take r, a.modTime < v.modTime) ∧
      (∀ b ∈ ms.drop r, v.modTime ≤ b.modTime) := by
  have hmono : ∀ p q, p ≤ q → q < ms.length →
      0 ≤ (fun a => modTimeCmp a v) (ms.getD p default) →
      0 ≤ (fun a => modTimeCmp a v) (ms.getD q default) := by
    intro p q hpq hq h0
    simp only at h0 ⊢
    rw [modTimeCmp_nonneg] at h0 ⊢
    rcases Nat.eq_or_lt_of_le hpq with heq | hlt
    · subst heq; exact h0
    · have hp : p < ms.length := by omega
      have hstep := List.pairwise_iff_getElem.mp hs p q hp hq hlt
      rw [List.getD_eq_getElem ms default hp] at h0
      rw [List.getD_eq_getElem ms default hq]
      omega
  obtain ⟨hlo, hhi⟩ := binarySearchFunc_spec ms (fun a => modTimeCmp a v) hmono
  refine ⟨binarySearchFunc ms (fun a => modTimeCmp a v),
    binarySearchFunc_le ms _, rfl, ?_, ?_⟩
  · intro a ha
    obtain ⟨i, hi, hia⟩ := List.mem_iff_getElem.mp ha
    have hlen : i < binarySearchFunc ms (fun a => modTimeCmp a v) ⊓ ms.length := by
      rw [← List.length_take]
      exact hi
    have hir : i < binarySearchFunc ms (fun a => modTimeCmp a v) := (lt_min_iff.mp hlen).1
    have hilen : i < ms.length := (lt_min_iff.mp hlen).2
    have hcmp := hlo i hir
    rw [List.getD_eq_getElem ms default hilen] at hcmp
    rw [modTimeCmp_lt] at hcmp
    rw [← hia, List.getElem_take]
    exact hcmp
  · intro b hb
    obtain ⟨j, hj, hjb⟩ := List.mem_iff_getElem.mp hb
    have hjlen : j < ms.length - binarySearchFunc ms (fun a => modTimeCmp a v) := by
      rw [← List.length_drop]
      exact hj
    have hrj : binarySearchFunc ms (fun a => modTimeCmp a v) + j < ms.length := by omega
    have hcmp := hhi (binarySearchFunc ms (fun a => modTimeCmp a v) + j) (by omega) hrj
    rw [List.getD_eq_getElem ms default hrj] at hcmp
    rw [modTimeCmp_nonneg] at hcmp
    rw [← hjb, List.getElem_drop]
    exact hcmp

theorem insertSorted_sorted (ms : List FileInfo) (v : FileInfo)
    (hs : List.Pairwise (fun a b => a.modTime ≤ b.modTime) ms) :
    List.Pairwise (fun a b => a.modTime ≤ b.modTime) ( insertSorted ms v modTimeCmp) := by
  obtain ⟨r, hr, heq, htake, hdrop⟩ := insertSorted_core ms v hs
  rw [heq, List.pairwise_append]
  refine ⟨List.Pairwise.sublist (List.take_sublist r ms) hs, ?_, ?_⟩
  · rw [List.pairwise_cons]
    exact ⟨fun b hb => hdrop b hb, List.Pairwise.sublist (List.drop_sublist r ms) hs⟩
  · intro a ha b hb
    rcases List.mem_cons.mp hb with hb2 | hb2
    · rw [hb2]
      exact le_of_lt (htake a ha)
    · exact le_trans (le_of_lt (htake a ha)) (hdrop b hb2)

theorem insertSorted_distinct (ms : List FileInfo) (v : FileInfo)
    (hd : List.Pairwise (fun a b => a.ident ≠ b.ident) ms)
    (hv : ∀ m ∈ ms, v.ident ≠ m.ident) :
    List.Pairwise (fun a b => a.ident ≠ b.ident) ( insertSorted ms v modTimeCmp) := by
  have hsymm : ∀ {x y : FileInfo}, x.ident ≠ y.ident → y.ident ≠ x.ident :=
    fun h => fun he => h he.symm
  have hperm := insertSorted_perm ms v modTimeCmp
  rw [List.Perm.pairwise_iff hsymm hperm, List.pairwise_cons]
  exact ⟨hv, hd⟩

/-! ### The grouper map -/

theorem lookupGroup_setGroup_self (gs : Groups) (cs : String) (ms2 : List FileInfo)
    (h : (lookupGroup gs cs).isSome) :
    lookupGroup (setGroup gs cs ms2) cs = some ms2 := by
  induction gs with
  | nil => simp [lookupGroup] at h
  | cons g rest IH =>
    obtain ⟨k, ms⟩ := g
    by_cases hk : k == cs
    · simp [lookupGroup, setGroup, hk]
    · rw [lookupGroup, if_neg (by simp [hk])] at h
      simp only [setGroup, if_neg (by simp [hk] : ¬ (k == cs) = true)]
      rw [lookupGroup, if_neg (by simp [hk])]
      exact IH h

theorem lookupGroup_setGroup_other (gs : Groups) (cs c : String) (ms2 : List FileInfo)
    (h : c ≠ cs) :
    lookupGroup (setGroup gs cs ms2) c = lookupGroup gs c := by
  induction gs with
  | nil => simp [setGroup]
  | cons g rest IH =>
    obtain ⟨k, ms⟩ := g
    by_cases hk : k == cs
    · have hkc : (k == c) = false := by
        have : k = cs := by simpa using hk
        subst this
        simpa using fun he => h he.symm
      simp [lookupGroup, setGroup, hk, hkc]
    · simp only [setGroup, if_neg (by simp [hk] : ¬ (k == cs) = true)]
      by_cases hkc : k == c
      · simp [lookupGroup, hkc]
      · simp only [lookupGroup, if_neg (by simp [hkc] : ¬ (k == c) = true)]
        exact IH

theorem lookupGroup_append_some (gs gs2 : Groups) (cs : String) (ms : List FileInfo)
    (h : lookupGroup gs cs = some ms) :
    lookupGroup (gs ++ gs2) cs = some ms := by
  induction gs with
  | nil => simp [lookupGroup] at h
  | cons g rest IH =>
    obtain ⟨k, ms1⟩ := g
    by_cases hk : k == cs
    · rw [lookupGroup, if_pos hk] at h
      simp only [List.cons_append]
      rw [lookupGroup, if_pos hk]
      exact h
    · rw [lookupGroup, if_neg (by simp [hk])] at h
      simp only [List.cons_append]
      rw [lookupGroup, if_neg (by simp [hk])]
      exact IH h

theorem lookupGroup_append_none (gs gs2 : Groups) (cs : String)
    (h : lookupGroup gs cs = none) :
    lookupGroup (gs ++ gs2) cs = lookupGroup gs2 cs := by
  induction gs with
  | nil => simp
  | cons g rest IH =>
    obtain ⟨k, ms1⟩ := g
    by_cases hk : k == cs
    · rw [lookupGroup, if_pos hk] at h
      cases h
    · rw [lookupGroup, if_neg (by simp [hk])] at h
      simp only [List.cons_append]
      rw [lookupGroup, if_neg (by simp [hk])]
      exact IH h

theorem insertStep_inv (gs : Groups) (cs : String) (info : FileInfo)
    (hinv : ∀ c ms, lookupGroup gs c = some ms →
      List.Pairwise (fun a b => a.modTime ≤ b.modTime) ms ∧
      List.Pairwise (fun a b => a.ident ≠ b.ident) ms) :
    ∀ c ms, lookupGroup (insertStep gs cs info) c = some ms →
      List.Pairwise (fun a b => a.modTime ≤ b.modTime) ms ∧
      List.Pairwise (fun a b => a.ident ≠ b.ident) ms := by
  intro c ms hms
  rw [insertStep] at hms
  by_cases hdup : ((lookupGroup gs cs).getD []).any (fun e => sameFile info e)
  · rw [if_pos hdup] at hms
    exact hinv c ms hms
  · rw [if_neg hdup] at hms
    cases hl : lookupGroup gs cs with
    | some seen =>
      simp only [hl] at hms
      by_cases hc : c = cs
      · subst hc
        rw [lookupGroup_setGroup_self gs c _ (by rw [hl]; rfl)] at hms
        cases hms
        obtain ⟨h1, h2⟩ := hinv c seen hl
        have hv : ∀ m ∈ seen, info.ident ≠ m.ident := by
          intro m hm heq
          apply hdup
          rw [List.any_eq_true]
          refine ⟨m, by rw [hl]; exact hm, ?_⟩
          simp [sameFile, heq]
        exact ⟨insertSorted_sorted seen info h1, insertSorted_distinct seen info h2 hv⟩
      · rw [lookupGroup_setGroup_other gs cs c _ hc] at hms
        exact hinv c ms hms
    | none =>
      simp only [hl] at hms
      by_cases hc : c = cs
      · subst hc
        rw [lookupGroup_append_none gs _ c hl] at hms
        rw [lookupGroup, if_pos (by simp)] at hms
        cases hms
        simp
      · cases hgc : lookupGroup gs c with
        | some ms2 =>
          rw [lookupGroup_append_some gs _ c ms2 hgc] at hms
          cases hms
          exact hinv c ms hgc
        | none =>
          rw [lookupGroup_append_none gs _ c hgc] at hms
          rw [lookupGroup, if_neg (by simp; exact fun he => hc he.symm)] at hms
          cases hms

theorem walkStep_inv (minSizeBytes : Nat) (gs : Groups) (e : WalkEntry)
    (hinv : ∀ c ms, lookupGroup gs c = some ms →
      List.Pairwise (fun a b => a.modTime ≤ b.modTime) ms ∧
      List.Pairwise (fun a b => a.ident ≠ b.ident) ms) :
    ∀ c ms, lookupGroup (walkStep minSizeBytes gs e) c = some ms →
      List.Pairwise (fun a b => a.modTime ≤ b.modTime) ms ∧
      List.Pairwise (fun a b => a.ident ≠ b.ident) ms := by
  rw [walkStep]
  by_cases h1 : e.isDir
  · rw [if_pos h1]
    exact hinv
  · rw [if_neg h1]
    by_cases h2 : e.info.size < minSizeBytes
    · rw [if_pos h2]
      exact hinv
    · rw [if_neg h2]
      exact insertStep_inv gs e.cs e.info hinv

theorem foldl_walkStep_inv (minSizeBytes : Nat) :
    ∀ (entries : List WalkEntry) (gs : Groups),
    (∀ c ms, lookupGroup gs c = some ms →
      List.Pairwise (fun a b => a.modTime ≤ b.modTime) ms ∧
      List.Pairwise (fun a b => a.ident ≠ b.ident) ms) →
    ∀ c ms, lookupGroup (List.foldl (walkStep minSizeBytes) gs entries) c = some ms →
      List.Pairwise (fun a b => a.modTime ≤ b.modTime) ms ∧
      List.Pairwise (fun a b => a.ident ≠ b.ident) ms := by
  intro entries
  induction entries with
  | nil => intro gs hinv; exact hinv
  | cons e t IH =>
    intro gs hinv
    rw [List.foldl_cons]
    exact IH (walkStep minSizeBytes gs e) (walkStep_inv minSizeBytes gs e hinv)

/-- C2: the grouper's insertion is identity-deduplicating and keeps
every group sorted.  Inserting a record whose identity matches an
existing member of its fingerprint's group is a no-op, and after any
walk every group of `findDuplicateFiles` is non-decreasing by
modification time with pairwise distinct identities. -/
theorem grouper_invariants (gs : Groups) (cs : String) (info : FileInfo)
    (hdup : ∃ e ∈ (lookupGroup gs cs).getD [], sameFile info e = true)
    (minSizeBytes : Nat) (entries : List WalkEntry) (c : String) (ms : List FileInfo)
    (hms : lookupGroup (findDuplicateFiles minSizeBytes entries) c = some ms) :
    insertStep gs cs info = gs ∧
    List.Pairwise (fun a b => a.modTime ≤ b.modTime) ms ∧
    List.Pairwise (fun a b => a.ident ≠ b.ident) ms := by
  constructor
  · rw [insertStep, if_pos]
    rw [List.any_eq_true]
    obtain ⟨e, he, hse⟩ := hdup
    exact ⟨e, he, hse⟩
  · rw [findDuplicateFiles] at hms
    exact foldl_walkStep_inv minSizeBytes entries [] (by intro c2 ms2 h; cases h) c ms hms

/-- C2 witness: a concrete duplicate-identity insertion is a no-op, and
the two-entry walk's group is sorted with distinct identities. -/
theorem grouper_invariants_check :
    insertStep [("h1", [fiA])] "h1" fiDup = [("h1", [fiA])] ∧
    List.Pairwise (fun a b => a.modTime ≤ b.modTime) [fiB, fiA] ∧
    List.Pairwise (fun a b => a.ident ≠ b.ident) [fiB, fiA] :=
  grouper_invariants [("h1", [fiA])] "h1" fiDup (by decide) 0 [weA, weB] "h1" [fiB, fiA]
    (by decide)

/-- C8 counterexample: a modification-time tie is NOT stable at a
concrete input.  `fiA` and `fiC` have equal modification times; the
earlier-inserted `fiA` does not stay before the newly inserted `fiC`:
the binary search returns the lower bound, so the new record is placed
first. -/
theorem insert_tie_counterexample :
    insertSorted [fiA] fiC modTimeCmp = [fiC, fiA] ∧
    insertSorted [fiA] fiC modTimeCmp ≠ [fiA, fiC] ∧
    fiA.modTime = fiC.modTime ∧ fiA ≠ fiC := by
  refine ⟨by decide, by decide, by decide, by decide⟩

/-- C8 (amended): insertion preserves ascending modification-time
order, but ties are resolved the other way around: the binary search
returns the lower bound, so the newly inserted record is placed before
every existing member whose modification time is equal to (or later
than) its own, the strictly earlier members staying in front. -/
theorem insert_tie_before_equals (ms : List FileInfo) (v : FileInfo)
    (hs : List.Pairwise (fun a b => a.modTime ≤ b.modTime) ms) :
    ∃ l1 l2, insertSorted ms v modTimeCmp = l1 ++ v :: l2 ∧
      (∀ a ∈ l1, a.modTime < v.modTime) ∧
      (∀ b ∈ l2, v.modTime ≤ b.modTime) ∧
      List.Pairwise (fun a b => a.modTime ≤ b.modTime) ( insertSorted ms v modTimeCmp) ∧
      List.Perm ( insertSorted ms v modTimeCmp) (v :: ms) := by
  obtain ⟨r, hr, heq, htake, hdrop⟩ := insertSorted_core ms v hs
  exact ⟨ms.take r, ms.drop r, heq, htake, hdrop, insertSorted_sorted ms v hs,
    insertSorted_perm ms v modTimeCmp⟩

/-- C8 witness: the amended statement at the concrete tie. -/
theorem insert_tie_before_equals_check :
    ∃ l1 l2, insertSorted [fiA] fiC modTimeCmp = l1 ++ fiC :: l2 ∧
      (∀ a ∈ l1, a.modTime < fiC.modTime) ∧
      (∀ b ∈ l2, fiC.modTime ≤ b.modTime) ∧
      List.Pairwise (fun a b => a.modTime ≤ b.modTime) ( insertSorted [fiA] fiC modTimeCmp) ∧
      List.Perm ( insertSorted [fiA] fiC modTimeCmp) (fiC :: [fiA]) :=
  insert_tie_before_equals [fiA] fiC (by simp)

theorem insertStep_fresh (cs0 : String) (ms0 : List FileInfo) (info : FileInfo)
    (hnew : ∀ m ∈ ms0, info.ident ≠ m.ident) :
    insertStep [(cs0, ms0)] cs0 info = [(cs0, insertSorted ms0 info modTimeCmp)] := by
  have hl : lookupGroup [(cs0, ms0)] cs0 = some ms0 := by simp [lookupGroup]
  have hany : (ms0.any (fun e => sameFile info e)) = false := by
    rw [List.any_eq_false]
    intro m hm
    simp [sameFile]
    exact hnew m hm
  rw [insertStep, hl]
  simp only [Option.getD_some]
  rw [if_neg (by simp [hany])]
  simp [setGroup]

theorem scenario_fold (minSizeBytes : Nat) (cs0 : String) :
    ∀ (entries : List WalkEntry) (ms0 : List FileInfo),
    (∀ e ∈ entries, e.isDir = false) →
    (∀ e ∈ entries, ¬ e.info.size < minSizeBytes) →
    (∀ e ∈ entries, e.cs = cs0) →
    List.Pairwise (fun a b => a.info.ident ≠ b.info.ident) entries →
    (∀ e ∈ entries, ∀ m ∈ ms0, e.info.ident ≠ m.ident) →
    List.Pairwise (fun a b => a.modTime ≤ b.modTime) ms0 →
    ∃ ms1, List.foldl (walkStep minSizeBytes) [(cs0, ms0)] entries = [(cs0, ms1)] ∧
      List.Perm ms1 (entries.map (fun e => e.info) ++ ms0) ∧
      List.Pairwise (fun a b => a.modTime ≤ b.modTime) ms1 := by
  intro entries
  induction entries with
  | nil =>
    intro ms0 _ _ _ _ _ hs
    exact ⟨ms0, rfl, by simp, hs⟩
  | cons e t IH =>
    intro ms0 hdir hsize hcs hpw hnew hs
    have he1 : e.isDir = false := hdir e (by simp)
    have he2 : ¬ e.info.size < minSizeBytes := hsize e (by simp)
    have he3 : e.cs = cs0 := hcs e (by simp)
    have hstep : walkStep minSizeBytes [(cs0, ms0)] e =
        [(cs0, insertSorted ms0 e.info modTimeCmp)] := by
      rw [walkStep, he1, he3]
      simp only [Bool.false_eq_true, if_false]
      rw [if_neg he2]
      exact insertStep_fresh cs0 ms0 e.info (fun m hm => hnew e (by simp) m hm)
    rw [List.foldl_cons, hstep]
    have hperm0 : List.Perm ( insertSorted ms0 e.info modTimeCmp) (e.info :: ms0) :=
      insertSorted_perm ms0 e.info modTimeCmp
    have hnew2 : ∀ e2 ∈ t, ∀ m ∈ insertSorted ms0 e.info modTimeCmp,
        e2.info.ident ≠ m.ident := by
      intro e2 he2t m hm
      have hm2 : m ∈ e.info :: ms0 := hperm0.mem_iff.mp hm
      rcases List.mem_cons.mp hm2 with hm3 | hm3
      · rw [hm3]
        exact fun he => (List.pairwise_cons.mp hpw).1 e2 he2t he.symm
      · exact hnew e2 (by simp [he2t]) m hm3
    obtain ⟨ms1, hfold, hp, hsorted⟩ := IH ( insertSorted ms0 e.info modTimeCmp)
      (fun e2 he2t => hdir e2 (by simp [he2t]))
      (fun e2 he2t => hsize e2 (by simp [he2t]))
      (fun e2 he2t => hcs e2 (by simp [he2t]))
      (List.pairwise_cons.mp hpw).2
      hnew2
      (insertSorted_sorted ms0 e.info hs)
    refine ⟨ms1, hfold, ?_, hsorted⟩
    have hstep1 : List.Perm (t.map (fun e => e.info) ++ insertSorted ms0 e.info modTimeCmp)
        (t.map (fun e => e.info) ++ (e.info :: ms0)) :=
      List.Perm.append_left _ hperm0
    have hstep2 : List.Perm (t.map (fun e => e.info) ++ (e.info :: ms0))
        (e.info :: (t.map (fun e => e.info) ++ ms0)) := List.perm_middle
    have hfinal : List.Perm ms1 (e.info :: (t.map (fun e => e.info) ++ ms0)) :=
      (hp.trans hstep1).trans hstep2
    simpa using hfinal

theorem processTargets_dryrun (envF : String → String → CloneEnv) (srcPath : String) :
    ∀ (ts : List FileInfo) (acc : Nat), acc < 2 ^ 64 →
    processTargets false envF srcPath ts acc =
      (ts.map (fun t => FsAction.output ("[DRY-RUN] Would clone " ++ srcPath ++ " to " ++ t.path)),
       Except.ok (), (acc + (ts.map (fun f => f.size)).sum) % 2 ^ 64) := by
  intro ts
  induction ts with
  | nil =>
    intro acc hacc
    simp only [processTargets, List.map_nil, List.sum_nil, Prod.mk.injEq]
    refine ⟨trivial, trivial, ?_⟩
    omega
  | cons t rest IH =>
    intro acc hacc
    have hlt : (acc + t.size) % 2 ^ 64 < 2 ^ 64 := Nat.mod_lt _ (by norm_num)
    simp only [processTargets, Bool.false_eq_true, if_false]
    rw [IH ((acc + t.size) % 2 ^ 64) hlt]
    simp only [List.map_cons, List.sum_cons, Prod.mk.injEq]
    refine ⟨trivial, trivial, ?_⟩
    rw [Nat.mod_add_mod, Nat.add_assoc]

theorem runCloneDuplicates_savings_single (envF : String → String → CloneEnv)
    (cs0 : String) (ms1 : List FileInfo)
    (hsum : ((ms1.drop 1).map (fun f => f.size)).sum < 2 ^ 64) :
    (runCloneDuplicates false envF [(cs0, ms1)]).2.2 =
      ((ms1.drop 1).map (fun f => f.size)).sum := by
  rw [runCloneDuplicates, processGroups]
  by_cases h2 : ms1.length < 2
  · rw [if_pos h2]
    have hdrop : ms1.drop 1 = [] := by
      cases ms1 with
      | nil => rfl
      | cons a b =>
        cases b with
        | nil => rfl
        | cons c d => exact absurd h2 (by simp only [List.length_cons]; omega)
    rw [hdrop]
    simp [processGroups]
  · rw [if_neg h2]
    rw [processTargets_dryrun envF _ (ms1.drop 1) 0 (by norm_num)]
    show (processGroups false envF []
      ((0 + ((ms1.drop 1).map (fun f => f.size)).sum) % 2 ^ 64)).2.2 = _
    simp only [processGroups]
    omega

/-- C1: dedup correctness for a tree of identically-sized candidates
with one shared content hash.  If every walked entry is a regular file
of at least the minimum size, all with checksum `cs0` and pairwise
distinct identities, then the grouper produces exactly one group, that
group has exactly N = `entries.length` members, the planner's targets
are every member except `members[0]` (the earliest-modified, as members
are sorted by modification time), there are exactly N - 1 of them, and
the reported savings total is the sum of the target files' sizes. -/
theorem dedup_group_plan (minSizeBytes : Nat) (cs0 : String) (entries : List WalkEntry)
    (hne : entries ≠ [])
    (hdir : ∀ e ∈ entries, e.isDir = false)
    (hsize : ∀ e ∈ entries, minSizeBytes ≤ e.info.size)
    (hcs : ∀ e ∈ entries, e.cs = cs0)
    (hdist : List.Pairwise (fun a b => a.info.ident ≠ b.info.ident) entries)
    (hbound : ((entries.map (fun e => e.info)).map (fun f => f.size)).sum < 2 ^ 64)
    (envF : String → String → CloneEnv) :
    (findDuplicateFiles minSizeBytes entries).map Prod.fst = [cs0] ∧
    ((lookupGroup (findDuplicateFiles minSizeBytes entries) cs0).getD []).length =
      entries.length ∧
    (((lookupGroup (findDuplicateFiles minSizeBytes entries) cs0).getD []).drop 1).length =
      entries.length - 1 ∧
    (runCloneDuplicates false envF (findDuplicateFiles minSizeBytes entries)).2.2 =
      ((((lookupGroup (findDuplicateFiles minSizeBytes entries) cs0).getD []).drop 1).map
        (fun f => f.size)).sum ∧
    (∀ m ∈ (lookupGroup (findDuplicateFiles minSizeBytes entries) cs0).getD [],
      (((lookupGroup (findDuplicateFiles minSizeBytes entries) cs0).getD
        []).headD default).modTime ≤ m.modTime) := by
  obtain ⟨e, t, rfl⟩ : ∃ e t, entries = e :: t := by
    cases entries with
    | nil => exact absurd rfl hne
    | cons e t => exact ⟨e, t, rfl⟩
  have hw : walkStep minSizeBytes [] e = [(cs0, [e.info])] := by
    rw [walkStep, hdir e (by simp)]
    simp only [Bool.false_eq_true, if_false]
    rw [if_neg (by have := hsize e (by simp); omega), hcs e (by simp)]
    simp [insertStep, lookupGroup]
  have hfdf : findDuplicateFiles minSizeBytes (e :: t) =
      List.foldl (walkStep minSizeBytes) [(cs0, [e.info])] t := by
    rw [findDuplicateFiles, List.foldl_cons, hw]
  obtain ⟨ms1, hfold, hp, hsorted⟩ := scenario_fold minSizeBytes cs0 t [e.info]
    (fun e2 h2 => hdir e2 (by simp [h2]))
    (fun e2 h2 => by have := hsize e2 (by simp [h2]); omega)
    (fun e2 h2 => hcs e2 (by simp [h2]))
    (List.pairwise_cons.mp hdist).2
    (by
      intro e2 he2t m hm
      simp at hm
      rw [hm]
      exact fun he => (List.pairwise_cons.mp hdist).1 e2 he2t he.symm)
    (by simp)
  have hres : findDuplicateFiles minSizeBytes (e :: t) = [(cs0, ms1)] := by
    rw [hfdf, hfold]
  have hlook : (lookupGroup (findDuplicateFiles minSizeBytes (e :: t)) cs0).getD [] = ms1 := by
    rw [hres]
    simp [lookupGroup]
  have hpfull : List.Perm ms1 ((e :: t).map (fun e => e.info)) := by
    have h1 : List.Perm (t.map (fun e => e.info) ++ [e.info])
        (e.info :: t.map (fun e => e.info)) := List.perm_append_singleton e.info _
    simpa using hp.trans h1
  have hlen : ms1.length = (e :: t).length := by
    have := hpfull.length_eq
    simpa using this
  have hsz : (ms1.map (fun f => f.size)).sum =
      (((e :: t).map (fun e => e.info)).map (fun f => f.size)).sum :=
    (hpfull.map (fun f => f.size)).sum_eq
  obtain ⟨m0, r0, hms1⟩ : ∃ m0 r0, ms1 = m0 :: r0 := by
    cases hm : ms1 with
    | nil => rw [hm] at hlen; simp at hlen
    | cons m0 r0 => exact ⟨m0, r0, rfl⟩
  have htargets : ms1.drop 1 = r0 := by rw [hms1]; rfl
  have hsumlt : ((ms1.drop 1).map (fun f => f.size)).sum < 2 ^ 64 := by
    rw [htargets]
    have : (ms1.map (fun f => f.size)).sum = m0.size + (r0.map (fun f => f.size)).sum := by
      rw [hms1]; simp
    omega
  refine ⟨by rw [hres]; rfl, by rw [hlook, hlen], ?_, ?_, ?_⟩
  · rw [hlook, List.length_drop, hlen]
  · rw [hlook, hres, runCloneDuplicates_savings_single envF cs0 ms1 hsumlt]
  · rw [hlook]
    intro m hm
    rw [hms1] at hm hsorted ⊢
    simp only [List.headD_cons]
    rcases List.mem_cons.mp hm with hm2 | hm2
    · rw [hm2]
    · exact (List.pairwise_cons.mp hsorted).1 m hm2

/-- C1 witness: the two-entry scenario, concretely. -/
theorem dedup_group_plan_check :
    (findDuplicateFiles 0 [weA, weB]).map Prod.fst = ["h1"] ∧
    ((lookupGroup (findDuplicateFiles 0 [weA, weB]) "h1").getD []).length =
      [weA, weB].length ∧
    (((lookupGroup (findDuplicateFiles 0 [weA, weB]) "h1").getD []).drop 1).length =
      [weA, weB].length - 1 ∧
    (runCloneDuplicates false envFOK (findDuplicateFiles 0 [weA, weB])).2.2 =
      ((((lookupGroup (findDuplicateFiles 0 [weA, weB]) "h1").getD []).drop 1).map
        (fun f => f.size)).sum ∧
    (∀ m ∈ (lookupGroup (findDuplicateFiles 0 [weA, weB]) "h1").getD [],
      (((lookupGroup (findDuplicateFiles 0 [weA, weB]) "h1").getD
        []).headD default).modTime ≤ m.modTime) :=
  dedup_group_plan 0 "h1" [weA, weB] (by decide) (by decide) (by decide) (by decide)
    (by decide) (by decide) envFOK

theorem processTargets_dryrun_actions (envF : String → String → CloneEnv)
    (srcPath : String) : ∀ (ts : List FileInfo) (acc : Nat),
    (∀ a ∈ (processTargets false envF srcPath ts acc).1, ∃ s, a = FsAction.output s) ∧
    (processTargets false envF srcPath ts acc).2.1 = Except.ok () := by
  intro ts
  induction ts with
  | nil => intro acc; simp [processTargets]
  | cons t rest IH =>
    intro acc
    simp only [processTargets, Bool.false_eq_true, if_false]
    constructor
    · intro a ha
      rcases List.mem_cons.mp ha with ha2 | ha2
      · exact ⟨_, ha2⟩
      · exact (IH ((acc + t.size) % 2 ^ 64)).1 a ha2
    · exact (IH ((acc + t.size) % 2 ^ 64)).2

theorem processGroups_dryrun (envF : String → String → CloneEnv) :
    ∀ (gs : Groups) (acc : Nat),
    (∀ a ∈ (processGroups false envF gs acc).1, ∃ s, a = FsAction.output s) ∧
    (processGroups false envF gs acc).2.1 = Except.ok () := by
  intro gs
  induction gs with
  | nil => intro acc; simp [processGroups]
  | cons g rest IH =>
    intro acc
    obtain ⟨k, ms⟩ := g
    by_cases h : ms.length < 2
    · simp only [processGroups, if_pos h]
      exact IH acc
    · have ht := processTargets_dryrun_actions envF (ms.headD default).path (ms.drop 1) acc
      simp only [processGroups, if_neg h]
      rw [ht.2]
      constructor
      · intro a ha
        rcases List.mem_append.mp ha with ha2 | ha2
        · exact ht.1 a ha2
        · exact (IH _).1 a ha2
      · exact (IH _).2

/-- C3: without `--real` the clone-duplicates run never mutates the
filesystem: whatever the groups and whatever the platform environment,
every action of the dry run is a stdout print (never a removal or a
clone call) and the run succeeds, only reporting the plan and the
savings total. -/
theorem dry_run_no_mutation (envF : String → String → CloneEnv) (gs : Groups) :
    (∀ a ∈ (runCloneDuplicates false envF gs).1, ∃ s, a = FsAction.output s) ∧
    (runCloneDuplicates false envF gs).2.1 = Except.ok () :=
  processGroups_dryrun envF gs 0

/-- C4: error policy of the clone operation.  Once the preliminary
steps pass (absolute paths resolved, source present), the operation
succeeds exactly when the platform call succeeds or fails with
`ENOTSUP`/`EXDEV`; in the latter two cases it is a success-without-
action (only the target removal and the clone call itself appear in the
trace — no byte-for-byte copy exists in the model or the code); any
other clone failure is an error, and the executor stops at the first
failing target without touching the rest. -/
theorem clone_error_policy (src tgt : String) (env : CloneEnv)
    (h1 : env.absSourceOK = true) (h2 : env.absTargetOK = true)
    (h3 : env.sourceExists = true)
    (envF : String → String → CloneEnv) (srcPath : String) (t : FileInfo)
    (rest : List FileInfo) (acc : Nat) (msg : String)
    (hfail : (cloneFile srcPath t.path (envF srcPath t.path)).2 = Except.error msg) :
    ((cloneFile src tgt env).2 = Except.ok () ↔
      (env.cloneResult = CloneResult.ok ∨ env.cloneResult = CloneResult.enotsup ∨
        env.cloneResult = CloneResult.exdev)) ∧
    ((env.cloneResult = CloneResult.enotsup ∨ env.cloneResult = CloneResult.exdev) →
      (cloneFile src tgt env).2 = Except.ok () ∧
      ∀ a ∈ (cloneFile src tgt env).1,
        a = FsAction.removeFile tgt ∨ a = FsAction.cloneCall src tgt) ∧
    processTargets true envF srcPath (t :: rest) acc =
      ((cloneFile srcPath t.path (envF srcPath t.path)).1, Except.error msg,
        (acc + t.size) % 2 ^ 64) := by
  refine ⟨?_, ?_, ?_⟩
  · simp only [cloneFile, h1, h2, h3, Bool.not_true, Bool.false_eq_true, if_false]
    cases hres : env.cloneResult <;> simp
  · intro hcr
    constructor
    · simp only [cloneFile, h1, h2, h3, Bool.not_true, Bool.false_eq_true, if_false]
      rcases hcr with hcr | hcr <;> rw [hcr]
    · intro a ha
      simp only [cloneFile, h1, h2, h3, Bool.not_true, Bool.false_eq_true, if_false] at ha
      rcases hcr with hcr | hcr <;> rw [hcr] at ha <;>
        by_cases htg : env.targetExists <;> simp [htg] at ha <;> tauto
  · simp only [processTargets, if_true]
    rw [hfail]

/-- C4 witness: the policy at concrete environments — `ENOTSUP` is a
tolerated no-op, and a genuine clone error stops the target loop. -/
theorem clone_error_policy_check :
    ((cloneFile "s" "t" envNotSup).2 = Except.ok () ↔
      (envNotSup.cloneResult = CloneResult.ok ∨ envNotSup.cloneResult = CloneResult.enotsup ∨
        envNotSup.cloneResult = CloneResult.exdev)) ∧
    ((envNotSup.cloneResult = CloneResult.enotsup ∨
        envNotSup.cloneResult = CloneResult.exdev) →
      (cloneFile "s" "t" envNotSup).2 = Except.ok () ∧
      ∀ a ∈ (cloneFile "s" "t" envNotSup).1,
        a = FsAction.removeFile "t" ∨ a = FsAction.cloneCall "s" "t") ∧
    processTargets true envFBad "s" [fiA] 0 =
      ((cloneFile "s" fiA.path (envFBad "s" fiA.path)).1,
        Except.error ("clone-file failed: " ++ "EIO"), (0 + fiA.size) % 2 ^ 64) :=
  clone_error_policy "s" "t" envNotSup rfl rfl rfl envFBad "s" fiA [] 0
    ("clone-file failed: " ++ "EIO") rfl

/-- C7 counterexample: with an existing target whose removal fails
(`envRemoveFails` has `removeFails = true`) and a working platform
clone, the operation succeeds — no `IOError` is reported, because the
source discards the removal result (`_ = os.Remove(...)`). -/
theorem remove_failure_ignored_counterexample :
    envRemoveFails.targetExists = true ∧ envRemoveFails.removeFails = true ∧
    (cloneFile "s" "t" envRemoveFails).2 = Except.ok () ∧
    (cloneFile "s" "t" envRemoveFails).1 =
      [FsAction.removeFile "t", FsAction.cloneCall "s" "t"] :=
  ⟨rfl, rfl, rfl, rfl⟩

/-- C7 (amended): when the clone target already exists the operation
does first remove it, but a removal failure is ignored rather than
reported: the outcome of `cloneFile` is entirely independent of the
removal result, and any failure surfaces only through the subsequent
platform clone call. -/
theorem remove_failure_ignored (src tgt : String) (env : CloneEnv)
    (h1 : env.absSourceOK = true) (h2 : env.absTargetOK = true)
    (h3 : env.sourceExists = true) (h4 : env.targetExists = true) :
    FsAction.removeFile tgt ∈ (cloneFile src tgt env).1 ∧
    (∀ b : Bool, cloneFile src tgt { env with removeFails := b } = cloneFile src tgt env) := by
  constructor
  · simp only [cloneFile, h1, h2, h3, h4, Bool.not_true, Bool.false_eq_true, if_false,
      if_true]
    cases env.cloneResult <;> simp
  · intro b
    rfl

/-- C7 witness: the amended statement at a concrete environment. -/
theorem remove_failure_ignored_check :
    FsAction.removeFile "t" ∈ (cloneFile "s" "t" envAllOK).1 ∧
    (∀ b : Bool, cloneFile "s" "t" { envAllOK with removeFails := b } =
      cloneFile "s" "t" envAllOK) :=
  remove_failure_ignored "s" "t" envAllOK rfl rfl rfl rfl

/-- C9: the same-file check errors exactly when both paths exist and
denote distinct objects; equal identities succeed with the affirmative
message, and a missing path is reported with an informative message
while the command still succeeds. -/
theorem same_file_check_spec (a b : Option Nat) :
    ((∃ e, (commandSameFile a b).2 = Except.error e) ↔
      (∃ ia ib, a = some ia ∧ b = some ib ∧ ia ≠ ib)) ∧
    (∀ i, a = some i → b = some i →
      commandSameFile a b = ([FsAction.output "Files are the same!"], Except.ok ())) ∧
    (a = none →
      commandSameFile a b = ([FsAction.output "[SOURCE_FILE] is missing"], Except.ok ())) ∧
    (∀ ia, a = some ia → b = none →
      commandSameFile a b = ([FsAction.output "[DEST_FILE] is missing"], Except.ok ())) := by
  cases a with
  | none => simp [commandSameFile]
  | some ia =>
    cases b with
    | none => simp [commandSameFile]
    | some ib =>
      by_cases h : ia = ib
      · subst h
        simp [commandSameFile]
      · simp [commandSameFile, h]
        exact fun he => h he.symm

/-- C10: the truncation helper is NOT total.  `alphaPath` has UTF-8
byte length 32 (so the `len(s) < length` guard does not return early
for length 32) but only 16 runes, so the rune-slice index 32 is out of
bounds and Go's `[]rune(s)[32:]` panics — embedded as `none`. -/
theorem truncate_panics_on_multibyte :
    alphaPath.utf8ByteSize = 32 ∧ alphaPath.data.length = 16 ∧
    truncateStringPrefix alphaPath 32 = none := by
  refine ⟨by decide, by decide, by decide⟩
